import Mathlib

/-!
Shallow embedding of the geometric core of the `nanofold` repository:
the rigid-body `Frame` algebra, the `BackboneUpdate` quaternion
construction, and `InvariantPointAttention` (IPA) from
`src/nanofold/model/invariant_point_attention.py`.

Tensors are embedded at the index level: a tensor of shape
`[N, H, D]` becomes a function `Fin N → Fin H → Fin D → ℝ`.
Real numbers stand for the floating-point values; tolerance claims
(`within 1e-5`) are settled as exact equalities of the real-valued model.

The files `nanofold/frame.py`, `nanofold/model/backbone_update.py` and
`nanofold/util.py` are not part of the source tree given here (only their
callers and tests are), so `Frame`, `BackboneUpdate` and `LinearWithView`
are modelled from the spec, as marked on each definition.
-/

namespace Nanofold

open Matrix Finset

/-- Modelled from the spec: `Frame` from `nanofold/frame.py` (absent from
the source tree). A per-residue rigid transform: `rotations` is an ordered
sequence of N 3x3 matrices, `translations` of N 3-vectors (spec section 3). -/
structure Frame (N : ℕ) where
  rotations : Fin N → Matrix (Fin 3) (Fin 3) ℝ
  translations : Fin N → Fin 3 → ℝ

/-- Modelled from the spec: `Frame.apply` — transform a point of residue
`i` from local to global coordinates, `global = R · local + t`. -/
def Frame.apply {N : ℕ} (f : Frame N) (i : Fin N) (x : Fin 3 → ℝ) : Fin 3 → ℝ :=
  f.rotations i *ᵥ x + f.translations i

/-- Modelled from the spec: `Frame.inverse` — rotation `Rᵀ`,
translation `-Rᵀ·t`. -/
def Frame.inverse {N : ℕ} (f : Frame N) : Frame N where
  rotations := fun i => (f.rotations i)ᵀ
  translations := fun i => -((f.rotations i)ᵀ *ᵥ f.translations i)

/-- Modelled from the spec: `Frame.compose(outer, inner)` — rotation
`R_outer·R_inner`, translation `R_outer·t_inner + t_outer`, per residue. -/
def Frame.compose {N : ℕ} (outer inner : Frame N) : Frame N where
  rotations := fun i => outer.rotations i * inner.rotations i
  translations := fun i => outer.rotations i *ᵥ inner.translations i + outer.translations i

/-- The identity frame: `R = I`, `t = 0` (spec section 4.1). -/
def Frame.identity (N : ℕ) : Frame N where
  rotations := fun _ => 1
  translations := fun _ => 0

/-- A single global rigid transform `(R, t)` broadcast to a length-`N`
frame, as `Frame.compose(transform, frames)` broadcasts the length-1
transform in the test scenario of spec section 8. -/
def Frame.const (N : ℕ) (R : Matrix (Fin 3) (Fin 3) ℝ) (t : Fin 3 → ℝ) : Frame N where
  rotations := fun _ => R
  translations := fun _ => t

/-- C4: for every Frame `f` whose rotations satisfy the orthonormality
invariant `RᵀR = I` (the documented invariant of the Frame data model),
`inverse(f)` has rotation `Rᵀ` and translation `-Rᵀ·t`, and
`apply(inverse(f), apply(f, p)) = p` for every residue and point
(exactly, hence within any tolerance). -/
theorem frame_roundtrip {N : ℕ} (f : Frame N)
    (horth : ∀ i, (f.rotations i)ᵀ * f.rotations i = 1) (i : Fin N) (x : Fin 3 → ℝ) :
    f.inverse.rotations i = (f.rotations i)ᵀ ∧
    f.inverse.translations i = -((f.rotations i)ᵀ *ᵥ f.translations i) ∧
    f.inverse.apply i (f.apply i x) = x := by
  refine ⟨rfl, rfl, ?_⟩
  simp only [Frame.apply, Frame.inverse, mulVec_add]
  have h := horth i
  calc (f.rotations i)ᵀ *ᵥ (f.rotations i *ᵥ x) + (f.rotations i)ᵀ *ᵥ f.translations i +
        -((f.rotations i)ᵀ *ᵥ f.translations i)
      = (f.rotations i)ᵀ *ᵥ (f.rotations i *ᵥ x) := by abel
    _ = x := by rw [mulVec_mulVec, h, one_mulVec]

/-- Witness for C4 at a concrete frame (identity rotation, translation
`(1,2,3)`) and concrete point `(5,6,7)`. -/
theorem frame_roundtrip_witness :
    (Frame.const 1 1 ![1, 2, 3]).inverse.apply 0
      ((Frame.const 1 1 ![1, 2, 3]).apply 0 ![5, 6, 7]) = ![5, 6, 7] :=
  (frame_roundtrip (Frame.const 1 1 ![1, 2, 3])
    (fun _ => by simp [Frame.const]) 0 ![5, 6, 7]).2.2

/-- C5: `compose` has the documented rotation and translation, is
associative, and the identity frame is a left and right unit. -/
theorem frame_compose_laws {N : ℕ} (f g h : Frame N) (k : Fin N) :
    ((f.compose g).rotations k = f.rotations k * g.rotations k ∧
      (f.compose g).translations k =
        f.rotations k *ᵥ g.translations k + f.translations k) ∧
    (f.compose g).compose h = f.compose (g.compose h) ∧
    f.compose (Frame.identity N) = f ∧ (Frame.identity N).compose f = f := by
  refine ⟨⟨rfl, rfl⟩, ?_, ?_, ?_⟩
  · cases f; cases g; cases h
    simp only [Frame.compose, Frame.mk.injEq]
    constructor
    · funext i; rw [mul_assoc]
    · funext i; simp [mulVec_add, mulVec_mulVec, add_assoc]
  · cases f
    simp [Frame.compose, Frame.identity, Frame.mk.injEq]
  · cases f
    simp [Frame.compose, Frame.identity, Frame.mk.injEq]

/-! ## Backbone Update

`nanofold/model/backbone_update.py` is absent from the source tree (only
`src/tests/test_backbone_update.py` references it), so the component is
modelled from spec section 4.2. -/

/-- Modelled from the spec: the standard quaternion-to-rotation-matrix
formula for a unit quaternion `(a, b, c, d)`, written in the homogeneous
form (for a unit quaternion the diagonal entries `a²+b²-c²-d²` and
`1-2(c²+d²)` coincide). -/
def quatToMatrix (a b c d : ℝ) : Matrix (Fin 3) (Fin 3) ℝ :=
  !![1 - 2 * (c ^ 2 + d ^ 2), 2 * (b * c - a * d), 2 * (b * d + a * c);
     2 * (b * c + a * d), 1 - 2 * (b ^ 2 + d ^ 2), 2 * (c * d - a * b);
     2 * (b * d - a * c), 2 * (c * d + a * b), 1 - 2 * (b ^ 2 + c ^ 2)]

/-- A unit quaternion yields an orthonormal matrix: `M · Mᵀ = 1`. -/
theorem quatToMatrix_mul_transpose (a b c d : ℝ) (h : a ^ 2 + b ^ 2 + c ^ 2 + d ^ 2 = 1) :
    quatToMatrix a b c d * (quatToMatrix a b c d)ᵀ = 1 := by
  ext i j
  fin_cases i <;> fin_cases j <;>
    simp only [quatToMatrix, Matrix.mul_apply, Matrix.transpose_apply, Fin.sum_univ_three,
      Matrix.one_apply, Matrix.cons_val', Matrix.cons_val_zero, Matrix.cons_val_one,
      Matrix.head_cons, Matrix.cons_val_two, Matrix.tail_cons, Matrix.of_apply] <;>
    norm_num [Fin.ext_iff]
  · linear_combination (4 * (c ^ 2 + d ^ 2)) * h
  · linear_combination (-4 * b * c) * h
  · linear_combination (-4 * b * d) * h
  · linear_combination (-4 * b * c) * h
  · linear_combination (4 * (b ^ 2 + d ^ 2)) * h
  · linear_combination (-4 * c * d) * h
  · linear_combination (-4 * b * d) * h
  · linear_combination (-4 * c * d) * h
  · linear_combination (4 * (b ^ 2 + c ^ 2)) * h

/-- Modelled from the spec: the parameters of Backbone Update's single
affine projection to 6 scalars (`nn.Linear(single_embedding_size, 6)`). -/
structure BackboneUpdateParams (S : ℕ) where
  weight : Fin 6 → Fin S → ℝ
  bias : Fin 6 → ℝ

/-- Modelled from the spec: the affine projection `W · feat + bias`,
applied per residue (`model.linear(single)` in the test). -/
def BackboneUpdateParams.linear {S N : ℕ} (p : BackboneUpdateParams S)
    (feat : Fin N → Fin S → ℝ) : Fin N → Fin 6 → ℝ :=
  fun i k => ∑ c, p.weight k c * feat i c + p.bias k

/-- Modelled from the spec: `BackboneUpdate.forward` — the first 3 scalars
`(b, c, d)` parameterize the quaternion `normalize((1, b, c, d))`, which is
converted to a rotation matrix; the last 3 scalars are the translation. -/
noncomputable def backboneUpdate {S N : ℕ} (p : BackboneUpdateParams S)
    (feat : Fin N → Fin S → ℝ) : Frame N where
  rotations := fun i =>
    let b := p.linear feat i 0
    let c := p.linear feat i 1
    let d := p.linear feat i 2
    let s := Real.sqrt (1 + b ^ 2 + c ^ 2 + d ^ 2)
    quatToMatrix (1 / s) (b / s) (c / s) (d / s)
  translations := fun i k => p.linear feat i ⟨k.val + 3, by omega⟩

/-- The normalized quaternion has unit norm (the denominator
`sqrt(1 + b² + c² + d²)` is never zero). -/
theorem normalized_quat_norm (b c d : ℝ) :
    (1 / Real.sqrt (1 + b ^ 2 + c ^ 2 + d ^ 2)) ^ 2 +
      (b / Real.sqrt (1 + b ^ 2 + c ^ 2 + d ^ 2)) ^ 2 +
      (c / Real.sqrt (1 + b ^ 2 + c ^ 2 + d ^ 2)) ^ 2 +
      (d / Real.sqrt (1 + b ^ 2 + c ^ 2 + d ^ 2)) ^ 2 = 1 := by
  have hn : (0 : ℝ) < 1 + b ^ 2 + c ^ 2 + d ^ 2 := by positivity
  have hs : Real.sqrt (1 + b ^ 2 + c ^ 2 + d ^ 2) ^ 2 = 1 + b ^ 2 + c ^ 2 + d ^ 2 :=
    Real.sq_sqrt hn.le
  rw [div_pow, div_pow, div_pow, div_pow, one_pow, hs]
  rw [div_add_div_same, div_add_div_same, div_add_div_same]
  exact div_self hn.ne'

/-- C6: every rotation matrix produced by Backbone Update satisfies
`R · Rᵀ = 1` exactly in the real-valued model (hence within 1e-5), for
every parameter setting and every input feature tensor. -/
theorem backbone_update_orthonormal {S N : ℕ} (p : BackboneUpdateParams S)
    (feat : Fin N → Fin S → ℝ) (i : Fin N) :
    (backboneUpdate p feat).rotations i * ((backboneUpdate p feat).rotations i)ᵀ = 1 := by
  apply quatToMatrix_mul_transpose
  exact normalized_quat_norm _ _ _

/-- C7 counterexample: the spec's projection is affine (`W · feat + bias`),
so with zero weights and a bias whose fourth coordinate is 1, an all-zero
feature vector yields translation `(1, 0, 0) ≠ 0`: the claim as stated
(for every BackboneUpdate, i.e. every parameter setting) is false. -/
theorem backbone_update_zero_feature_counterexample :
    ¬ ((backboneUpdate
          (⟨fun _ _ => 0, fun _ => 1⟩ : BackboneUpdateParams 1)
          (fun _ _ => (0 : ℝ)) : Frame 1).translations 0 = 0) := by
  intro hcontra
  have h0 := congrFun hcontra 0
  simp only [backboneUpdate, BackboneUpdateParams.linear, Pi.zero_apply] at h0
  norm_num at h0

/-- C7 amended: provided the affine projection's bias is zero (so the
projection sends the zero feature vector to six zeros), Backbone Update on
all-zero features produces the identity rotation (the quaternion
`(1,0,0,0)` normalized) and the zero translation, for every residue. -/
theorem backbone_update_zero_feature {S N : ℕ} (p : BackboneUpdateParams S)
    (hb : p.bias = 0) (i : Fin N) :
    (backboneUpdate p (fun _ _ => 0)).rotations i = 1 ∧
    (backboneUpdate p (fun _ _ => 0)).translations i = 0 := by
  have hlin : p.linear ((fun _ _ => 0) : Fin N → Fin S → ℝ) = fun _ _ => 0 := by
    funext j k
    simp [BackboneUpdateParams.linear, hb]
  constructor
  · simp only [backboneUpdate, hlin]
    norm_num [Real.sqrt_one, quatToMatrix]
    exact Matrix.one_fin_three.symm
  · funext k
    simp [backboneUpdate, hlin]

/-- Witness for C7's amended theorem at concrete zero parameters. -/
theorem backbone_update_zero_feature_witness :
    (backboneUpdate (⟨fun _ _ => 0, fun _ => 0⟩ : BackboneUpdateParams 1)
        (fun _ _ => 0) : Frame 1).rotations 0 = 1 ∧
    (backboneUpdate (⟨fun _ _ => 0, fun _ => 0⟩ : BackboneUpdateParams 1)
        (fun _ _ => 0) : Frame 1).translations 0 = 0 :=
  backbone_update_zero_feature ⟨fun _ _ => 0, fun _ => 0⟩ rfl 0

/-! ## Invariant Point Attention — value-level embedding

Embedding of `src/nanofold/model/invariant_point_attention.py`.
A tensor of shape `[N, H, D]` is the function `Fin N → Fin H → Fin D → ℝ`;
each method is translated at the index level, with the layout obtained by
tracing the source's `unsqueeze` / `permute` / `transpose` / `matmul` /
`squeeze` steps (the resulting attention-weight layout is `[N, H, N]`,
i.e. index order `(i, h, j)`; the shape-level model below re-traces those
steps symbolically).

Sizes: `S` = single_embedding_size, `Z` = pair_embedding_size,
`D` = ipa_embedding_size, `P` = num_query_points, `Pv` = num_value_points,
`H` = num_heads, `N` = residue count. -/

/-- `nn.Softplus` — `softplus(x) = log(1 + exp x)`. -/
noncomputable def softplus (x : ℝ) : ℝ := Real.log (1 + Real.exp x)

/-- Index set of the per-head concatenated attention vector built by
`torch.cat([single_rep_attention, pair_rep_attention,
frame_attention.view(len_seq, num_heads, -1), frame_norm_attention], dim=-1)`:
the flat index `Fin (D + Z + Pv*3 + Pv)` of the `nn.Linear` input is
identified with this structured index via the concatenation bijection. -/
abbrev CatIdx (Z D Pv : ℕ) := Fin D ⊕ Fin Z ⊕ (Fin Pv × Fin 3) ⊕ Fin Pv

/-- The learned parameters of `InvariantPointAttention.__init__`:
`wq/wk/wv` are the `LinearWithView` weights of `self.query/key/value`
(viewed as `[H, D]` per residue), `wqp/wkp/wvp` those of
`self.query_points/key_points/value_points` (viewed as `[H, P, 3]` resp.
`[H, Pv, 3]`), `wb` the weight of `self.bias` (`nn.Linear(Z, H, bias=False)`),
`scale_head` the `H` learnable scales, and `wout`/`bout` the weight and bias
of `self.out` (`wout` indexed by the structured concatenation index). -/
structure InvariantPointAttention (S Z D P Pv H : ℕ) where
  wq : Fin H → Fin D → Fin S → ℝ
  wk : Fin H → Fin D → Fin S → ℝ
  wv : Fin H → Fin D → Fin S → ℝ
  wqp : Fin H → Fin P → Fin 3 → Fin S → ℝ
  wkp : Fin H → Fin P → Fin 3 → Fin S → ℝ
  wvp : Fin H → Fin Pv → Fin 3 → Fin S → ℝ
  wb : Fin H → Fin Z → ℝ
  scale_head : Fin H → ℝ
  wout : Fin S → Fin H → CatIdx Z D Pv → ℝ
  bout : Fin S → ℝ

namespace InvariantPointAttention

variable {S Z D P Pv H N : ℕ}

/-- `self.scale_single_rep = 1 / math.sqrt(ipa_embedding_size)`. -/
noncomputable def scale_single_rep (D : ℕ) : ℝ := 1 / Real.sqrt D

/-- `self.scale_frame = -1 / math.sqrt(18 * self.num_query_points)`. -/
noncomputable def scale_frame (P : ℕ) : ℝ := -1 / Real.sqrt (18 * P)

/-- Modelled from the spec: `LinearWithView` (from the absent
`nanofold/util.py`) is a bias-free linear map whose output is viewed with
the given trailing shape; `self.query(single_rep)` has shape `[N, H, D]`. -/
def query (m : InvariantPointAttention S Z D P Pv H) (s : Fin N → Fin S → ℝ) :
    Fin N → Fin H → Fin D → ℝ :=
  fun i h d => ∑ c, m.wq h d c * s i c

/-- `self.key(single_rep)`, shape `[N, H, D]`. -/
def key (m : InvariantPointAttention S Z D P Pv H) (s : Fin N → Fin S → ℝ) :
    Fin N → Fin H → Fin D → ℝ :=
  fun i h d => ∑ c, m.wk h d c * s i c

/-- `self.value(single_rep)`, shape `[N, H, D]`. -/
def value (m : InvariantPointAttention S Z D P Pv H) (s : Fin N → Fin S → ℝ) :
    Fin N → Fin H → Fin D → ℝ :=
  fun i h d => ∑ c, m.wv h d c * s i c

/-- `self.query_points(single_rep)`, shape `[N, H, P, 3]`. -/
def query_points (m : InvariantPointAttention S Z D P Pv H) (s : Fin N → Fin S → ℝ) :
    Fin N → Fin H → Fin P → Fin 3 → ℝ :=
  fun i h pt x => ∑ c, m.wqp h pt x c * s i c

/-- `self.key_points(single_rep)`, shape `[N, H, P, 3]`. -/
def key_points (m : InvariantPointAttention S Z D P Pv H) (s : Fin N → Fin S → ℝ) :
    Fin N → Fin H → Fin P → Fin 3 → ℝ :=
  fun i h pt x => ∑ c, m.wkp h pt x c * s i c

/-- `self.value_points(single_rep)`, shape `[N, H, Pv, 3]`. -/
def value_points (m : InvariantPointAttention S Z D P Pv H) (s : Fin N → Fin S → ℝ) :
    Fin N → Fin H → Fin Pv → Fin 3 → ℝ :=
  fun i h pt x => ∑ c, m.wvp h pt x c * s i c

/-- `single_rep_weight`: `scale_single_rep * q.unsqueeze(-2) @ k.permute(1, 2, 0)`,
squeezed — element `(i, h, j)` is `scale_single_rep * ⟨q[i,h,·], k[j,h,·]⟩`. -/
noncomputable def single_rep_weight (m : InvariantPointAttention S Z D P Pv H)
    (s : Fin N → Fin S → ℝ) : Fin N → Fin H → Fin N → ℝ :=
  fun i h j => scale_single_rep D * ∑ d, m.query s i h d * m.key s j h d

/-- `pair_rep_weight`: `self.bias(pair_rep).transpose(-2, -1)` — element
`(i, h, j)` is the bias projection of `pair_rep[i, j]` at head `h`. -/
def pair_rep_weight (m : InvariantPointAttention S Z D P Pv H)
    (z : Fin N → Fin N → Fin Z → ℝ) : Fin N → Fin H → Fin N → ℝ :=
  fun i h j => ∑ c, m.wb h c * z i j c

/-- `frame_weight`: query/key points are mapped to global coordinates with
`Frame.apply` (residue `i`'s frame for query points, residue `j`'s for key
points), squared distances are summed over the `P` points (`torch.sum(..., dim=0)`
after the `squeeze`), and the result is scaled by
`self.scale_frame * self.softplus(self.scale_head)` — element `(i, h, j)`. -/
noncomputable def frame_weight (m : InvariantPointAttention S Z D P Pv H)
    (f : Frame N) (s : Fin N → Fin S → ℝ) : Fin N → Fin H → Fin N → ℝ :=
  fun i h j => scale_frame P * softplus (m.scale_head h) *
    ∑ pt, ∑ x, (f.apply i (m.query_points s i h pt) x - f.apply j (m.key_points s j h pt) x) ^ 2

/-- The three-term additive score of `forward` before normalization:
`self.single_rep_weight(...) + self.pair_rep_weight(...) + self.frame_weight(...)`. -/
noncomputable def unnormalized_weight (m : InvariantPointAttention S Z D P Pv H)
    (s : Fin N → Fin S → ℝ) (z : Fin N → Fin N → Fin Z → ℝ) (f : Frame N) :
    Fin N → Fin H → Fin N → ℝ :=
  fun i h j => m.single_rep_weight s i h j + m.pair_rep_weight z i h j + m.frame_weight f s i h j

/-- `nn.functional.softmax(weight, dim=-1)`: normalization over `j`. -/
noncomputable def weight (m : InvariantPointAttention S Z D P Pv H)
    (s : Fin N → Fin S → ℝ) (z : Fin N → Fin N → Fin Z → ℝ) (f : Frame N) :
    Fin N → Fin H → Fin N → ℝ :=
  fun i h j => Real.exp (m.unnormalized_weight s z f i h j) /
    ∑ j2, Real.exp (m.unnormalized_weight s z f i h j2)

/-- `single_rep_attention`: `weight.unsqueeze(-2) @ v.transpose(0, 1)`,
squeezed — element `(i, h, d)` is the weighted sum of `v[j, h, d]` over `j`. -/
def single_rep_attention (w : Fin N → Fin H → Fin N → ℝ)
    (m : InvariantPointAttention S Z D P Pv H) (s : Fin N → Fin S → ℝ) :
    Fin N → Fin H → Fin D → ℝ :=
  fun i h d => ∑ j, w i h j * m.value s j h d

/-- `pair_rep_attention`: `weight.unsqueeze(-2) @ pair_rep.unsqueeze(1)`,
squeezed — element `(i, h, c)` is the weighted sum of the raw pair
representation `pair_rep[i, j, c]` over `j`. -/
def pair_rep_attention (w : Fin N → Fin H → Fin N → ℝ)
    (z : Fin N → Fin N → Fin Z → ℝ) : Fin N → Fin H → Fin Z → ℝ :=
  fun i h c => ∑ j, w i h j * z i j c

/-- `frame_attention`: value points are mapped to global coordinates with
residue `j`'s frame, summed over `j` with the attention weights, and the
result is mapped back with `Frame.inverse(frames)[i]` — element `(i, h, pt)`
is a 3-vector. -/
noncomputable def frame_attention (w : Fin N → Fin H → Fin N → ℝ)
    (m : InvariantPointAttention S Z D P Pv H) (f : Frame N) (s : Fin N → Fin S → ℝ) :
    Fin N → Fin H → Fin Pv → Fin 3 → ℝ :=
  fun i h pt => f.inverse.apply i (fun x => ∑ j, w i h j * f.apply j (m.value_points s j h pt) x)

/-- `torch.linalg.vector_norm(frame_attention, dim=-1)`. -/
noncomputable def frame_norm_attention (w : Fin N → Fin H → Fin N → ℝ)
    (m : InvariantPointAttention S Z D P Pv H) (f : Frame N) (s : Fin N → Fin S → ℝ) :
    Fin N → Fin H → Fin Pv → ℝ :=
  fun i h pt => Real.sqrt (∑ x, frame_attention w m f s i h pt x ^ 2)

/-- The concatenated per-residue, per-head attention vector
(`torch.cat([...], dim=-1)` followed by `reshape(len_seq, -1)`), indexed by
the structured concatenation index. -/
noncomputable def cat_attention (m : InvariantPointAttention S Z D P Pv H)
    (s : Fin N → Fin S → ℝ) (z : Fin N → Fin N → Fin Z → ℝ) (f : Frame N) :
    Fin N → Fin H → CatIdx Z D Pv → ℝ :=
  fun i h t =>
    match t with
    | Sum.inl d => single_rep_attention (m.weight s z f) m s i h d
    | Sum.inr (Sum.inl c) => pair_rep_attention (m.weight s z f) z i h c
    | Sum.inr (Sum.inr (Sum.inl (pt, x))) => frame_attention (m.weight s z f) m f s i h pt x
    | Sum.inr (Sum.inr (Sum.inr pt)) => frame_norm_attention (m.weight s z f) m f s i h pt

/-- `forward`: the concatenated attention passes through `self.out`
(an affine `nn.Linear`), producing the `[N, S]` output. -/
noncomputable def forward (m : InvariantPointAttention S Z D P Pv H)
    (s : Fin N → Fin S → ℝ) (z : Fin N → Fin N → Fin Z → ℝ) (f : Frame N) :
    Fin N → Fin S → ℝ :=
  fun i o => (∑ h, ∑ t, m.wout o h t * m.cat_attention s z f i h t) + m.bout o

/-- Applying an orthogonal matrix preserves the sum of squares. -/
theorem sum_sq_orthogonal_mulVec (R : Matrix (Fin 3) (Fin 3) ℝ) (hR : Rᵀ * R = 1)
    (u : Fin 3 → ℝ) : ∑ x, (R *ᵥ u) x ^ 2 = ∑ x, u x ^ 2 := by
  have h1 : ∀ v : Fin 3 → ℝ, ∑ x, v x ^ 2 = v ⬝ᵥ v := by
    intro v
    simp [Matrix.dotProduct, sq]
  rw [h1, h1, Matrix.dotProduct_mulVec, ← Matrix.mulVec_transpose, Matrix.mulVec_mulVec,
    hR, Matrix.one_mulVec]

/-- Composing with a broadcast global transform post-applies `R · _ + t`. -/
theorem const_compose_apply {N : ℕ} (R : Matrix (Fin 3) (Fin 3) ℝ) (t : Fin 3 → ℝ)
    (f : Frame N) (i : Fin N) (x : Fin 3 → ℝ) :
    ((Frame.const N R t).compose f).apply i x = R *ᵥ f.apply i x + t := by
  simp only [Frame.const, Frame.compose, Frame.apply, ← Matrix.mulVec_mulVec,
    Matrix.mulVec_add]
  abel

/-- The frame term of the attention score is invariant under a global
rigid transform with orthogonal rotation. -/
theorem frame_weight_const_compose (m : InvariantPointAttention S Z D P Pv H)
    {N : ℕ} (f : Frame N) (s : Fin N → Fin S → ℝ) (R : Matrix (Fin 3) (Fin 3) ℝ)
    (t : Fin 3 → ℝ) (hR : Rᵀ * R = 1) :
    m.frame_weight ((Frame.const N R t).compose f) s = m.frame_weight f s := by
  have key : ∀ a b : Fin 3 → ℝ,
      ∑ x, ((R *ᵥ a + t) x - (R *ᵥ b + t) x) ^ 2 = ∑ x, (a x - b x) ^ 2 := by
    intro a b
    have h2 : ∀ x, (R *ᵥ a + t) x - (R *ᵥ b + t) x = (R *ᵥ (a - b)) x := by
      intro x
      simp [Matrix.mulVec_sub]
    calc ∑ x, ((R *ᵥ a + t) x - (R *ᵥ b + t) x) ^ 2
        = ∑ x, (R *ᵥ (a - b)) x ^ 2 := Finset.sum_congr rfl fun x _ => by rw [h2]
      _ = ∑ x, (a - b) x ^ 2 := sum_sq_orthogonal_mulVec R hR _
      _ = ∑ x, (a x - b x) ^ 2 := rfl
  funext i h j
  simp only [frame_weight]
  congr 1
  refine Finset.sum_congr rfl fun pt _ => ?_
  rw [const_compose_apply, const_compose_apply]
  exact key _ _

/-- The full three-term score is invariant under a global rigid
transform (the scalar and pair terms do not read the frames at all). -/
theorem unnormalized_weight_const_compose (m : InvariantPointAttention S Z D P Pv H)
    {N : ℕ} (s : Fin N → Fin S → ℝ) (z : Fin N → Fin N → Fin Z → ℝ) (f : Frame N)
    (R : Matrix (Fin 3) (Fin 3) ℝ) (t : Fin 3 → ℝ) (hR : Rᵀ * R = 1) :
    m.unnormalized_weight s z ((Frame.const N R t).compose f) =
      m.unnormalized_weight s z f := by
  have hf := frame_weight_const_compose m f s R t hR
  funext i h j
  simp only [unnormalized_weight, hf]

/-- The softmax-normalized attention weights are invariant under a global
rigid transform. -/
theorem weight_const_compose (m : InvariantPointAttention S Z D P Pv H)
    {N : ℕ} (s : Fin N → Fin S → ℝ) (z : Fin N → Fin N → Fin Z → ℝ) (f : Frame N)
    (R : Matrix (Fin 3) (Fin 3) ℝ) (t : Fin 3 → ℝ) (hR : Rᵀ * R = 1) :
    m.weight s z ((Frame.const N R t).compose f) = m.weight s z f := by
  have hu := unnormalized_weight_const_compose m s z f R t hR
  funext i h j
  simp only [weight, hu]

/-- Each softmax row sums to 1 (the denominator is a nonempty sum of
positive exponentials). -/
theorem weight_sum_one (m : InvariantPointAttention S Z D P Pv H)
    {N : ℕ} (s : Fin N → Fin S → ℝ) (z : Fin N → Fin N → Fin Z → ℝ) (f : Frame N)
    (i : Fin N) (h : Fin H) : ∑ j, m.weight s z f i h j = 1 := by
  have hpos : 0 < ∑ j2, Real.exp (m.unnormalized_weight s z f i h j2) :=
    Finset.sum_pos (fun j _ => Real.exp_pos _) ⟨i, Finset.mem_univ i⟩
  simp only [weight]
  rw [← Finset.sum_div, div_self hpos.ne']

/-- The point attention is invariant under a global rigid transform: the
globally-transformed weighted sum picks up exactly `R · _ + t` (the
weights sum to 1), which the composed inverse frame cancels. -/
theorem frame_attention_const_compose (m : InvariantPointAttention S Z D P Pv H)
    {N : ℕ} (w : Fin N → Fin H → Fin N → ℝ) (f : Frame N) (s : Fin N → Fin S → ℝ)
    (R : Matrix (Fin 3) (Fin 3) ℝ) (t : Fin 3 → ℝ) (hR : Rᵀ * R = 1)
    (hw : ∀ i h, ∑ j, w i h j = 1) :
    frame_attention w m ((Frame.const N R t).compose f) s = frame_attention w m f s := by
  funext i h pt
  simp only [frame_attention]
  set g : Fin 3 → ℝ := fun x => ∑ j, w i h j * f.apply j (m.value_points s j h pt) x with hg
  have hinner : (fun x => ∑ j, w i h j *
      ((Frame.const N R t).compose f).apply j (m.value_points s j h pt) x) = R *ᵥ g + t := by
    funext x
    have hswap : ∑ j, w i h j * (R *ᵥ f.apply j (m.value_points s j h pt)) x = (R *ᵥ g) x := by
      simp only [Matrix.mulVec, Matrix.dotProduct, hg, Finset.mul_sum]
      rw [Finset.sum_comm]
      refine Finset.sum_congr rfl fun j _ => Finset.sum_congr rfl fun y _ => by ring
    calc ∑ j, w i h j * ((Frame.const N R t).compose f).apply j (m.value_points s j h pt) x
        = ∑ j, (w i h j * (R *ᵥ f.apply j (m.value_points s j h pt)) x + w i h j * t x) := by
          refine Finset.sum_congr rfl fun j _ => ?_
          rw [const_compose_apply]
          simp [mul_add]
      _ = (R *ᵥ g) x + (∑ j, w i h j) * t x := by
          rw [Finset.sum_add_distrib, hswap, ← Finset.sum_mul]
      _ = (R *ᵥ g + t) x := by rw [hw i h]; simp
  rw [hinner]
  show ((Frame.const N R t).compose f).inverse.apply i (R *ᵥ g + t) = f.inverse.apply i g
  simp only [Frame.inverse, Frame.compose, Frame.const, Frame.apply, Matrix.transpose_mul,
    ← Matrix.mulVec_mulVec]
  have hc : ∀ v : Fin 3 → ℝ, Rᵀ *ᵥ (R *ᵥ v + t) = v + Rᵀ *ᵥ t := by
    intro v
    rw [Matrix.mulVec_add, Matrix.mulVec_mulVec, hR, Matrix.one_mulVec]
  rw [hc, hc, Matrix.mulVec_add, Matrix.mulVec_add]
  abel

/-- C1 (global invariance): for every parameter setting, every single and
pair representation, every set of Frames, and every global rigid transform
`(R, t)` with orthogonal rotation (`RᵀR = I`), running the IPA forward pass
on the Frames composed with the transform gives exactly the same output as
running it on the original Frames — hence equal within 1e-5. -/
theorem ipa_global_invariance (m : InvariantPointAttention S Z D P Pv H)
    {N : ℕ} (s : Fin N → Fin S → ℝ) (z : Fin N → Fin N → Fin Z → ℝ) (f : Frame N)
    (R : Matrix (Fin 3) (Fin 3) ℝ) (t : Fin 3 → ℝ) (hR : Rᵀ * R = 1) :
    m.forward s z ((Frame.const N R t).compose f) = m.forward s z f := by
  have hw := weight_const_compose m s z f R t hR
  have hfa : frame_attention (m.weight s z f) m ((Frame.const N R t).compose f) s =
      frame_attention (m.weight s z f) m f s :=
    frame_attention_const_compose m (m.weight s z f) f s R t hR
      (fun i h => weight_sum_one m s z f i h)
  have hcat : m.cat_attention s z ((Frame.const N R t).compose f) =
      m.cat_attention s z f := by
    funext i h tIdx
    rcases tIdx with d | c | ⟨pt, x⟩ | pt <;>
      simp only [cat_attention, hw, hfa, frame_norm_attention]
  funext i o
  simp only [forward, hcat]

/-- All-zero parameters at the smallest sizes, used to instantiate
hypotheses of the IPA theorems at a concrete input. -/
def zeroIPA : InvariantPointAttention 1 1 1 1 1 1 where
  wq := fun _ _ _ => 0
  wk := fun _ _ _ => 0
  wv := fun _ _ _ => 0
  wqp := fun _ _ _ _ => 0
  wkp := fun _ _ _ _ => 0
  wvp := fun _ _ _ _ => 0
  wb := fun _ _ => 0
  scale_head := fun _ => 0
  wout := fun _ _ _ => 0
  bout := fun _ => 0

/-- Witness for C1 at a concrete instance: identity global rotation,
translation `(1,2,3)`, identity frames, zero parameters and inputs. -/
theorem ipa_global_invariance_witness :
    zeroIPA.forward (fun _ _ => 0) (fun _ _ _ => 0)
        ((Frame.const 1 1 ![1, 2, 3]).compose (Frame.identity 1)) =
      zeroIPA.forward (fun _ _ => 0) (fun _ _ _ => 0) (Frame.identity 1) :=
  ipa_global_invariance zeroIPA (fun _ _ => 0) (fun _ _ _ => 0) (Frame.identity 1)
    1 ![1, 2, 3] (by simp)

/-- The attention score exactly as C2 words it: the scalar term
`(1/sqrt(ipa_dim)) · query[i,h]·key[j,h]`, plus the pair-bias projection at
`(i,j)` for head `h`, plus the frame term — the sum over the `P` query/key
point pairs of the squared Euclidean distance between residue `i`'s query
points and residue `j`'s key points mapped to global coordinates by their
residues' Frames, scaled by `softplus(scale_head[h]) · (-1/sqrt(18·P))`. -/
noncomputable def claimedScore (m : InvariantPointAttention S Z D P Pv H)
    {N : ℕ} (s : Fin N → Fin S → ℝ) (z : Fin N → Fin N → Fin Z → ℝ) (f : Frame N) :
    Fin N → Fin H → Fin N → ℝ :=
  fun i h j =>
    (1 / Real.sqrt D) * (∑ d, m.query s i h d * m.key s j h d) +
    (∑ c, m.wb h c * z i j c) +
    softplus (m.scale_head h) * (-1 / Real.sqrt (18 * P)) *
      (∑ pt, ∑ x,
        (f.apply i (m.query_points s i h pt) x - f.apply j (m.key_points s j h pt) x) ^ 2)

/-- C2: for every head `h` and residue pair `(i,j)`, the pre-softmax
attention weight computed by `forward` equals the three-term sum stated by
the claim, and the final weights are that sum passed through a softmax over
the `j` axis. -/
theorem ipa_attention_score (m : InvariantPointAttention S Z D P Pv H)
    {N : ℕ} (s : Fin N → Fin S → ℝ) (z : Fin N → Fin N → Fin Z → ℝ) (f : Frame N)
    (i : Fin N) (h : Fin H) (j : Fin N) :
    m.unnormalized_weight s z f i h j = m.claimedScore s z f i h j ∧
    m.weight s z f i h j = Real.exp (m.unnormalized_weight s z f i h j) /
      ∑ j2, Real.exp (m.unnormalized_weight s z f i h j2) := by
  refine ⟨?_, rfl⟩
  simp only [unnormalized_weight, claimedScore, single_rep_weight, pair_rep_weight,
    frame_weight, scale_single_rep, scale_frame]
  ring

/-- C8: the two uses of the pair representation are distinct — the score's
pair term is the bias projection of `pair_rep[i,j]` at head `h`, while the
concatenated pair-attention output aggregates the raw `pair_rep[i,j,c]`
(not its projection) with the normalized weights. -/
theorem ipa_pair_rep_two_uses (m : InvariantPointAttention S Z D P Pv H)
    {N : ℕ} (s : Fin N → Fin S → ℝ) (z : Fin N → Fin N → Fin Z → ℝ) (f : Frame N)
    (i : Fin N) (h : Fin H) (j : Fin N) (c : Fin Z) :
    m.unnormalized_weight s z f i h j =
      m.single_rep_weight s i h j + (∑ c2, m.wb h c2 * z i j c2) +
        m.frame_weight f s i h j ∧
    m.cat_attention s z f i h (Sum.inr (Sum.inl c)) =
      ∑ j2, m.weight s z f i h j2 * z i j2 c :=
  ⟨rfl, rfl⟩

/-- C9: the forward computation is a pure function of the parameters and
the three inputs — two runs on equal parameters, single representation,
pair representation and Frames produce equal outputs (there is no other
state for it to read). -/
theorem ipa_forward_deterministic (m1 m2 : InvariantPointAttention S Z D P Pv H)
    {N : ℕ} (s1 s2 : Fin N → Fin S → ℝ) (z1 z2 : Fin N → Fin N → Fin Z → ℝ)
    (f1 f2 : Frame N) (hm : m1 = m2) (hs : s1 = s2) (hz : z1 = z2) (hf : f1 = f2) :
    m1.forward s1 z1 f1 = m2.forward s2 z2 f2 := by
  rw [hm, hs, hz, hf]

/-- Witness for C9 at a concrete instance. -/
theorem ipa_forward_deterministic_witness :
    zeroIPA.forward (fun _ _ => 0) (fun _ _ _ => 0) (Frame.identity 1) =
      zeroIPA.forward (fun _ _ => 0) (fun _ _ _ => 0) (Frame.identity 1) :=
  ipa_forward_deterministic zeroIPA zeroIPA (fun _ _ => 0) (fun _ _ => 0)
    (fun _ _ _ => 0) (fun _ _ _ => 0) (Frame.identity 1) (Frame.identity 1)
    rfl rfl rfl rfl

/-! ## Shape-level model of the forward pass

The value-level embedding above fixes the tensor shapes in its types, so
the dynamic-shape behaviour of the source (broadcasting, the unqualified
`squeeze()` in `frame_weight`, `view`/`reshape`/`cat`) is re-traced here
symbolically: a shape is a `List ℕ` of sizes, and each torch operation
used by `forward` becomes a partial function on shapes (`none` = the
operation raises). The pipelines below follow the source methods step by
step with the literal input shapes of the projections. -/

def bdim (a b : ℕ) : Option ℕ :=
  if a = b then some a else if a = 1 then some b else if b = 1 then some a else none

def bcastRev : List ℕ → List ℕ → Option (List ℕ)
  | [], ys => some ys
  | x :: xs, [] => some (x :: xs)
  | x :: xs, y :: ys => do
      let d ← bdim x y
      let rest ← bcastRev xs ys
      some (d :: rest)

def broadcast (xs ys : List ℕ) : Option (List ℕ) :=
  (bcastRev xs.reverse ys.reverse).map List.reverse

def matmulShape (a b : List ℕ) : Option (List ℕ) :=
  match a.reverse, b.reverse with
  | k :: m :: abatch, n :: k2 :: bbatch =>
      if k = k2 then (bcastRev abatch bbatch).map (fun batch => (n :: m :: batch).reverse)
      else none
  | _, _ => none

def unsqueezeLast (s : List ℕ) : List ℕ := s ++ [1]

def unsqueezeNeg2 (s : List ℕ) : Option (List ℕ) :=
  match s.reverse with
  | x :: rest => some ((x :: 1 :: rest).reverse)
  | [] => none

def unsqueezeNeg3 (s : List ℕ) : Option (List ℕ) :=
  match s.reverse with
  | x :: y :: rest => some ((x :: y :: 1 :: rest).reverse)
  | _ => none

def squeezeAll : List ℕ → List ℕ
  | [] => []
  | d :: rest => if d = 1 then squeezeAll rest else d :: squeezeAll rest

def squeezeNeg2 (s : List ℕ) : Option (List ℕ) :=
  match s.reverse with
  | x :: y :: rest => some (if y = 1 then (x :: rest).reverse else s)
  | _ => none

def squeezeLast (s : List ℕ) : Option (List ℕ) :=
  match s.reverse with
  | x :: rest => some (if x = 1 then rest.reverse else s)
  | [] => none

def transpose01 (s : List ℕ) : Option (List ℕ) :=
  match s with
  | a :: b :: rest => some (b :: a :: rest)
  | _ => none

def swapIdx (s : List ℕ) (i j : ℕ) : Option (List ℕ) := do
  let a ← s[i]?
  let b ← s[j]?
  some ((s.set i b).set j a)

def transpose0Neg2 (s : List ℕ) : Option (List ℕ) :=
  if s.length < 2 then none else swapIdx s 0 (s.length - 2)

def transposeNeg2Neg1 (s : List ℕ) : Option (List ℕ) :=
  match s.reverse with
  | x :: y :: rest => some ((y :: x :: rest).reverse)
  | _ => none

def sumDim0 (s : List ℕ) : Option (List ℕ) :=
  match s with
  | _ :: rest => some rest
  | [] => some []

def permute120 (s : List ℕ) : Option (List ℕ) :=
  match s with
  | [a, b, c] => some [b, c, a]
  | _ => none

def permute1203 (s : List ℕ) : Option (List ℕ) :=
  match s with
  | [a, b, c, d] => some [b, c, a, d]
  | _ => none

def dropLastDim (s : List ℕ) : Option (List ℕ) :=
  match s.reverse with
  | _ :: rest => some rest.reverse
  | [] => none

def applyShapeG (rb : List ℕ) (ps : List ℕ) : Option (List ℕ) := do
  let mm ← matmulShape (rb ++ [3, 3]) (unsqueezeLast ps)
  let sq ← squeezeLast mm
  broadcast sq (rb ++ [3])

def applyShape (n : ℕ) (ps : List ℕ) : Option (List ℕ) := applyShapeG [n] ps

def single_rep_weight_shape (n h d : ℕ) : Option (List ℕ) := do
  let qU ← unsqueezeNeg2 [n, h, d]
  let kP ← permute120 [n, h, d]
  let mm ← matmulShape qU kP
  squeezeNeg2 mm

def pair_rep_weight_shape (n h : ℕ) : Option (List ℕ) :=
  transposeNeg2Neg1 [n, n, h]

def frame_weight_shape (n h p : ℕ) : Option (List ℕ) := do
  let qpT ← transpose0Neg2 [n, h, p, 3]
  let lqp ← applyShape n qpT
  let lkp ← applyShape n qpT
  let dq ← unsqueezeNeg2 lqp
  let dk ← unsqueezeNeg3 lkp
  let diff ← broadcast dq dk
  let d1 ← unsqueezeNeg2 diff
  let sd ← matmulShape d1 (unsqueezeLast diff)
  let sm ← sumDim0 (squeezeAll sd)
  let st ← transpose01 sm
  broadcast [h, 1] st

def attention_weight_shape (n h d p : ℕ) : Option (List ℕ) := do
  let sw ← single_rep_weight_shape n h d
  let pw ← pair_rep_weight_shape n h
  let fw ← frame_weight_shape n h p
  let s1 ← broadcast sw pw
  broadcast s1 fw

def single_rep_attention_shape (w : List ℕ) (n h d : ℕ) : Option (List ℕ) := do
  let wU ← unsqueezeNeg2 w
  let vT ← transpose01 [n, h, d]
  let mm ← matmulShape wU vT
  squeezeNeg2 mm

def pair_rep_attention_shape (w : List ℕ) (n z : ℕ) : Option (List ℕ) := do
  let wU ← unsqueezeNeg2 w
  let mm ← matmulShape wU [n, 1, n, z]
  squeezeNeg2 mm

def frame_attention_shape_from (w : List ℕ) (n h pv : ℕ) : Option (List ℕ) := do
  let vpP ← permute1203 [n, h, pv, 3]
  let lvp ← applyShape n vpP
  let w1 ← unsqueezeNeg2 w
  let w2 ← unsqueezeNeg2 w1
  let mm ← matmulShape w2 lvp
  let la ← squeezeNeg2 mm
  applyShapeG [n, 1, 1] la

def frame_attention_shape (n h d p pv : ℕ) : Option (List ℕ) := do
  let w ← attention_weight_shape n h d p
  frame_attention_shape_from w n h pv

def viewNH (s : List ℕ) (n h : ℕ) : Option (List ℕ) :=
  if n * h = 0 then none
  else if s.prod % (n * h) = 0 then some [n, h, s.prod / (n * h)] else none

def catLast4 (a b c d : List ℕ) : Option (List ℕ) :=
  match a.reverse, b.reverse, c.reverse, d.reverse with
  | x :: ra, y :: rb, z :: rc, w :: rd =>
      if ra = rb ∧ rb = rc ∧ rc = rd then some ((x + y + z + w) :: ra).reverse else none
  | _, _, _, _ => none

def reshapeN1 (s : List ℕ) (n : ℕ) : Option (List ℕ) :=
  if n = 0 then none else if s.prod % n = 0 then some [n, s.prod / n] else none

def outLinearShape (s : List ℕ) (features out : ℕ) : Option (List ℕ) :=
  match s.reverse with
  | x :: rest => if x = features then some (out :: rest).reverse else none
  | [] => none

def forward_out_shape (n sdim z d p pv h : ℕ) : Option (List ℕ) := do
  let w ← attention_weight_shape n h d p
  let sa ← single_rep_attention_shape w n h d
  let pa ← pair_rep_attention_shape w n z
  let fa ← frame_attention_shape_from w n h pv
  let nrm ← dropLastDim fa
  let fv ← viewNH fa n h
  let ct ← catLast4 sa pa fv nrm
  let rs ← reshapeN1 ct n
  outLinearShape rs (h * (z + d + pv * (3 + 1))) sdim



theorem bdim_self (a : ℕ) : bdim a a = some a := by simp [bdim]

theorem bdim_one_left (b : ℕ) : bdim 1 b = some b := by
  rcases eq_or_ne 1 b with h | h
  · simp [bdim, h]
  · simp [bdim, h]

theorem bdim_one_right (a : ℕ) : bdim a 1 = some a := by
  rcases eq_or_ne a 1 with h | h
  · simp [bdim, h]
  · simp [bdim, h]

theorem applyShape4 (a b n : ℕ) : applyShape n [a, b, n, 3] = some [a, b, n, 3] := by
  simp [applyShape, applyShapeG, matmulShape, unsqueezeLast, squeezeLast, broadcast,
    bcastRev, bdim_self]

theorem bcast5 (a b n : ℕ) :
    broadcast [a, b, n, 1, 3] [a, b, 1, n, 3] = some [a, b, n, n, 3] := by
  simp [broadcast, bcastRev, bdim_self, bdim_one_left, bdim_one_right]

theorem matmul6 (a b n : ℕ) :
    matmulShape [a, b, n, n, 1, 3] [a, b, n, n, 3, 1] = some [a, b, n, n, 1, 1] := by
  simp [matmulShape, bcastRev, bdim_self]

theorem squeezeAll6 (a b n : ℕ) (ha : ¬(a = 1)) (hb : ¬(b = 1)) (hn : ¬(n = 1)) :
    squeezeAll [a, b, n, n, 1, 1] = [a, b, n, n] := by
  simp [squeezeAll, ha, hb, hn]

theorem bcastScale (h n : ℕ) :
    broadcast [h, 1] [n, h, n] = some [n, h, n] := by
  simp [broadcast, bcastRev, bdim_self, bdim_one_left, bdim_one_right]

theorem frame_weight_shape_eval (n h p : ℕ) (hn : ¬(n = 1)) (hh : ¬(h = 1)) (hp : ¬(p = 1)) :
    frame_weight_shape n h p = some [n, h, n] := by
  have h1 : transpose0Neg2 [n, h, p, 3] = some [p, h, n, 3] := rfl
  have h3 : unsqueezeNeg2 [p, h, n, 3] = some [p, h, n, 1, 3] := rfl
  have h4 : unsqueezeNeg3 [p, h, n, 3] = some [p, h, 1, n, 3] := rfl
  have h6 : unsqueezeNeg2 [p, h, n, n, 3] = some [p, h, n, n, 1, 3] := rfl
  have h6b : unsqueezeLast [p, h, n, n, 3] = [p, h, n, n, 3, 1] := rfl
  have h9 : sumDim0 [p, h, n, n] = some [h, n, n] := rfl
  have h10 : transpose01 [h, n, n] = some [n, h, n] := rfl
  simp only [frame_weight_shape, Option.bind_eq_bind, Option.some_bind, h1, applyShape4,
    h3, h4, bcast5, h6, h6b, matmul6, squeezeAll6 p h n hp hh hn, h9, h10,
    bcastScale h n]

theorem single_rep_weight_shape_eval (n h d : ℕ) :
    single_rep_weight_shape n h d = some [n, h, n] := by
  simp [single_rep_weight_shape, unsqueezeNeg2, permute120, matmulShape, bcastRev,
    bdim_self, squeezeNeg2]

theorem attention_weight_shape_eval (n h d p : ℕ) (hn : ¬(n = 1)) (hh : ¬(h = 1))
    (hp : ¬(p = 1)) : attention_weight_shape n h d p = some [n, h, n] := by
  simp only [attention_weight_shape, Option.bind_eq_bind, Option.some_bind,
    single_rep_weight_shape_eval, pair_rep_weight_shape,
    frame_weight_shape_eval n h p hn hh hp,
    show transposeNeg2Neg1 [n, n, h] = some [n, h, n] from rfl,
    show ∀ nn hh2 : ℕ, broadcast [nn, hh2, nn] [nn, hh2, nn] = some [nn, hh2, nn] from
      fun nn hh2 => by simp [broadcast, bcastRev, bdim_self]]

theorem bdim_none (a b : ℕ) (hab : ¬(a = b)) (ha : ¬(a = 1)) (hb : ¬(b = 1)) :
    bdim a b = none := by
  simp [bdim, hab, ha, hb]

theorem frame_weight_shape_n1 (h p : ℕ) : frame_weight_shape 1 h p = none := by
  have e1 : transpose0Neg2 [1, h, p, 3] = some [p, h, 1, 3] := rfl
  have e2 : unsqueezeNeg2 [p, h, 1, 3] = some [p, h, 1, 1, 3] := rfl
  have e3 : unsqueezeNeg3 [p, h, 1, 3] = some [p, h, 1, 1, 3] := rfl
  have e4 : broadcast [p, h, 1, 1, 3] [p, h, 1, 1, 3] = some [p, h, 1, 1, 3] := by
    simp [broadcast, bcastRev, bdim_self]
  have e5 : unsqueezeNeg2 [p, h, 1, 1, 3] = some [p, h, 1, 1, 1, 3] := rfl
  have e6 : unsqueezeLast [p, h, 1, 1, 3] = [p, h, 1, 1, 3, 1] := rfl
  have e7 : matmulShape [p, h, 1, 1, 1, 3] [p, h, 1, 1, 3, 1] = some [p, h, 1, 1, 1, 1] := by
    simp [matmulShape, bcastRev, bdim_self]
  by_cases hp : p = 1 <;> by_cases hh : h = 1
  · subst hp; subst hh; rfl
  · subst hp
    simp only [frame_weight_shape, Option.bind_eq_bind, Option.some_bind, e1, applyShape4,
      e2, e3, e4, e5, e6, e7,
      show squeezeAll [1, h, 1, 1, 1, 1] = [h] from by simp [squeezeAll, hh],
      show sumDim0 [h] = some [] from rfl,
      show transpose01 [] = none from rfl, Option.none_bind]
  · subst hh
    simp only [frame_weight_shape, Option.bind_eq_bind, Option.some_bind, e1, applyShape4,
      e2, e3, e4, e5, e6, e7,
      show squeezeAll [p, 1, 1, 1, 1, 1] = [p] from by simp [squeezeAll, hp],
      show sumDim0 [p] = some [] from rfl,
      show transpose01 [] = none from rfl, Option.none_bind]
  · simp only [frame_weight_shape, Option.bind_eq_bind, Option.some_bind, e1, applyShape4,
      e2, e3, e4, e5, e6, e7,
      show squeezeAll [p, h, 1, 1, 1, 1] = [p, h] from by simp [squeezeAll, hp, hh],
      show sumDim0 [p, h] = some [h] from rfl,
      show transpose01 [h] = none from rfl, Option.none_bind]

theorem frame_weight_shape_h1 (n p : ℕ) (hn : ¬(n = 1)) :
    frame_weight_shape n 1 p =
      (if p = 1 then none else some [n, n]) := by
  have e1 : transpose0Neg2 [n, 1, p, 3] = some [p, 1, n, 3] := rfl
  have e2 : unsqueezeNeg2 [p, 1, n, 3] = some [p, 1, n, 1, 3] := rfl
  have e3 : unsqueezeNeg3 [p, 1, n, 3] = some [p, 1, 1, n, 3] := rfl
  have e5 : unsqueezeNeg2 [p, 1, n, n, 3] = some [p, 1, n, n, 1, 3] := rfl
  have e6 : unsqueezeLast [p, 1, n, n, 3] = [p, 1, n, n, 3, 1] := rfl
  by_cases hp : p = 1
  · subst hp
    simp only [frame_weight_shape, Option.bind_eq_bind, Option.some_bind, e1, applyShape4,
      e2, e3, bcast5, e5, e6, matmul6,
      show squeezeAll [1, 1, n, n, 1, 1] = [n, n] from by simp [squeezeAll, hn],
      show sumDim0 [n, n] = some [n] from rfl,
      show transpose01 [n] = none from rfl, Option.none_bind]
    simp
  · simp only [if_neg hp]
    simp only [frame_weight_shape, Option.bind_eq_bind, Option.some_bind, e1, applyShape4,
      e2, e3, bcast5, e5, e6, matmul6,
      show squeezeAll [p, 1, n, n, 1, 1] = [p, n, n] from by simp [squeezeAll, hn, hp],
      show sumDim0 [p, n, n] = some [n, n] from rfl,
      show transpose01 [n, n] = some [n, n] from rfl,
      show broadcast [1, 1] [n, n] = some [n, n] from by
        simp [broadcast, bcastRev, bdim_one_left]]

theorem frame_weight_shape_p1 (n h : ℕ) (hn : ¬(n = 1)) (hh : ¬(h = 1)) (hnh : ¬(h = n)) :
    frame_weight_shape n h 1 = none := by
  simp only [frame_weight_shape, Option.bind_eq_bind, Option.some_bind,
    show transpose0Neg2 [n, h, 1, 3] = some [1, h, n, 3] from rfl, applyShape4,
    show unsqueezeNeg2 [1, h, n, 3] = some [1, h, n, 1, 3] from rfl,
    show unsqueezeNeg3 [1, h, n, 3] = some [1, h, 1, n, 3] from rfl, bcast5,
    show unsqueezeNeg2 [1, h, n, n, 3] = some [1, h, n, n, 1, 3] from rfl,
    show unsqueezeLast [1, h, n, n, 3] = [1, h, n, n, 3, 1] from rfl, matmul6,
    show squeezeAll [1, h, n, n, 1, 1] = [h, n, n] from by simp [squeezeAll, hn, hh],
    show sumDim0 [h, n, n] = some [n, n] from rfl,
    show transpose01 [n, n] = some [n, n] from rfl,
    show broadcast [h, 1] [n, n] = none from by
      simp [broadcast, bcastRev, bdim_one_left, bdim_none h n hnh hh hn]]

theorem attention_weight_shape_not (n h d p : ℕ) (hn1 : 1 ≤ n) (hh1 : 1 ≤ h) (hp1 : 1 ≤ p)
    (hone : n = 1 ∨ h = 1 ∨ p = 1) (hexc : ¬(p = 1 ∧ n = h ∧ 2 ≤ n)) :
    attention_weight_shape n h d p ≠ some [n, h, n] := by
  by_cases hn : n = 1
  · subst hn
    simp [attention_weight_shape, Option.bind_eq_bind, Option.some_bind,
      single_rep_weight_shape_eval, pair_rep_weight_shape, frame_weight_shape_n1,
      Option.none_bind]
  by_cases hh : h = 1
  · subst hh
    by_cases hp : p = 1
    · subst hp
      simp [attention_weight_shape, Option.bind_eq_bind, Option.some_bind,
        single_rep_weight_shape_eval, pair_rep_weight_shape,
        frame_weight_shape_h1 n 1 hn, Option.none_bind]
    · simp only [attention_weight_shape, Option.bind_eq_bind, Option.some_bind,
        single_rep_weight_shape_eval, pair_rep_weight_shape,
        show transposeNeg2Neg1 [n, n, 1] = some [n, 1, n] from rfl,
        frame_weight_shape_h1 n p hn, if_neg hp,
        show broadcast [n, 1, n] [n, 1, n] = some [n, 1, n] from by
          simp [broadcast, bcastRev, bdim_self, bdim_one_left, bdim_one_right],
        show broadcast [n, 1, n] [n, n] = some [n, n, n] from by
          simp [broadcast, bcastRev, bdim_self, bdim_one_left, bdim_one_right]]
      simp [hn]
  · have hp : p = 1 := by tauto
    subst hp
    have hnh : ¬(h = n) := by
      intro hcontra
      exact hexc ⟨rfl, hcontra.symm, by omega⟩
    simp [attention_weight_shape, Option.bind_eq_bind, Option.some_bind,
      single_rep_weight_shape_eval, pair_rep_weight_shape,
      frame_weight_shape_p1 n h hn hh hnh, Option.none_bind]


/-- C3 counterexample: at N=10, single_dim=3, pair_dim=7, ipa_dim=5,
P_q=4, P_v=8, H=2, the attention weights come out with shape `[10, 2, 10]`
(layout `[N, H, N]`, heads on the middle axis) and the point attention
with `[10, 2, 8, 3]` — not `[2, 10, 10]` and `[2, 8, 10, 3]` as claimed. -/
theorem ipa_shape_contract_counterexample :
    ¬(attention_weight_shape 10 2 5 4 = some [2, 10, 10] ∧
      frame_attention_shape 10 2 5 4 8 = some [2, 8, 10, 3]) := by decide

/-- C3 amended: with N=10, single_dim=3, pair_dim=7, ipa_dim=5, P_q=4,
P_v=8 and 2 heads, `forward` returns shape exactly `[10, 3]`; the
intermediate normalized attention weights have shape `[10, 2, 10]`
(`[N, H, N]`); and the point-attention output before final flattening has
shape `[10, 2, 8, 3]` (`[N, H, P_v, 3]`). -/
theorem ipa_shape_contract_amended :
    forward_out_shape 10 3 7 5 4 8 2 = some [10, 3] ∧
    attention_weight_shape 10 2 5 4 = some [10, 2, 10] ∧
    frame_attention_shape 10 2 5 4 8 = some [10, 2, 8, 3] := by decide

/-- C10 counterexample: at N=2, H=2, P_q=1 (a case with a size-1 query-point
dimension), the frame-term weight does lose a dimension to the unqualified
`squeeze`, but the sizes re-align: the assembled attention weights still
have the shape `[N, H, N] = [2, 2, 2]` and `forward` still produces the
documented `[N, single_dim]` output shape, so the claim that the forward
computation fails or produces wrongly-shaped results whenever any of
N, H, P_q equals 1 is false. -/
theorem ipa_squeeze_counterexample :
    attention_weight_shape 2 2 1 1 = some [2, 2, 2] ∧
    forward_out_shape 2 1 1 1 1 1 2 = some [2, 1] := by decide

/-- C10 amended: the attention-weight assembly of `forward` is
shape-correct (`[N, H, N]`) whenever N, H, P_q are all at least 2; and if
any of N, H, P_q equals 1 (all at least 1), the unqualified `squeeze` in
`frame_weight` drops extra dimensions and the assembly fails or produces a
wrongly-shaped weight tensor — except in the coincidental case P_q = 1 and
N = H, where the sizes re-align and the output keeps the documented shape
(with the point axis silently summed as if it were the head axis). -/
theorem ipa_squeeze_amended :
    (∀ n h d p : ℕ, 2 ≤ n → 2 ≤ h → 2 ≤ p →
      attention_weight_shape n h d p = some [n, h, n]) ∧
    (∀ n h d p : ℕ, 1 ≤ n → 1 ≤ h → 1 ≤ p → (n = 1 ∨ h = 1 ∨ p = 1) →
      ¬(p = 1 ∧ n = h ∧ 2 ≤ n) →
      attention_weight_shape n h d p ≠ some [n, h, n]) :=
  ⟨fun n h d p hn hh hp =>
      attention_weight_shape_eval n h d p (by omega) (by omega) (by omega),
    fun n h d p hn hh hp hone hexc =>
      attention_weight_shape_not n h d p hn hh hp hone hexc⟩

/-- Witness for C10's amended theorem at concrete sizes: all dimensions at
least 2 gives the `[N, H, N]` weight shape, while P_q = 1 with N ≠ H
breaks the assembly. -/
theorem ipa_squeeze_amended_witness :
    attention_weight_shape 2 2 5 2 = some [2, 2, 2] ∧
    attention_weight_shape 3 2 5 1 ≠ some [3, 2, 3] :=
  ⟨ipa_squeeze_amended.1 2 2 5 2 (by decide) (by decide) (by decide),
    ipa_squeeze_amended.2 3 2 5 1 (by decide) (by decide) (by decide)
      (Or.inr (Or.inr rfl)) (by decide)⟩

end InvariantPointAttention

end Nanofold
